import Mathlib

/-!
Verification of the `alice` middleware-chaining library.

The development shallowly embeds the Go sources:

* `chain.go` — the plain `Chain` of middleware `Constructor`s and `Endware`s
  (namespace `Alice`);
* `context_chain.go` — the context-carrying `ContextualizedChain`;
* `chain_to_context.go` — the bridge `toContextualizedChain`;
* the classic single-file variant (`Chain` with only constructors);
* the transport-level variant (`bob`, round trippers).

Handlers are modelled state-passing on the response writer: a handler maps the
current write trace and the request to the new write trace.  A second embedding
(`Alice.Mem`) models Go slices with explicit backing arrays (array identifier,
length, capacity) to settle the storage-freshness and non-mutation claims.
-/

namespace Alice

/-- The observable channel of an `http.ResponseWriter`: the list of chunks
written so far.  `w.Write(b)` appends `b`. -/
abbrev ResponseWriter : Type := List String

/-- An `http.Handler`: `ServeHTTP(w, r)` consumes the writer state and the
request and yields the updated writer state. -/
abbrev Handler (Req : Type) : Type := ResponseWriter → Req → ResponseWriter

/-- A constructor for a piece of middleware (`type Constructor func(http.Handler) http.Handler`). -/
abbrev Constructor (Req : Type) : Type := Handler Req → Handler Req

/-- `type Endware http.Handler`: functionality executed after the main handler. -/
abbrev Endware (Req : Type) : Type := Handler Req

variable {Req : Type}

/-- `type Chain struct { constructors []Constructor; endwares []Endware }` -/
structure Chain (Req : Type) where
  constructors : List (Constructor Req)
  endwares : List (Endware Req)

/-- `func New(constructors ...Constructor) Chain` — copies the given
constructors into a fresh chain with no endwares. -/
def New (constructors : List (Constructor Req)) : Chain Req :=
  ⟨constructors, []⟩

/-- `type endwareHandler struct { handler http.Handler; endwares []Endware }` -/
structure endwareHandler (Req : Type) where
  handler : Handler Req
  endwares : List (Endware Req)

/-- `func (eh endwareHandler) ServeHTTP(w, r)`: serves the main handler, then
every endware in order, against the same request and response. -/
def endwareHandler.ServeHTTP (eh : endwareHandler Req) : Handler Req :=
  fun w r =>
    let w := eh.handler w r
    eh.endwares.foldl (fun w endware => endware w r) w

/-- `func (c Chain) Then(h http.Handler) http.Handler`.  A `nil` terminal is the
`none` case and is replaced by `http.DefaultServeMux` (passed explicitly, since
it belongs to the external collaborator).  If any endwares are registered the
terminal is first wrapped in the `endwareHandler` adapter; then the loop
`for i := range c.constructors { h = c.constructors[len-1-i](h) }`
applies the constructors in reverse registration order, i.e. a right fold. -/
def Chain.Then (c : Chain Req) (defaultServeMux : Handler Req)
    (h : Option (Handler Req)) : Handler Req :=
  let h := match h with
    | none => defaultServeMux
    | some h => h
  let h := if c.endwares.length > 0 then (endwareHandler.mk h c.endwares).ServeHTTP else h
  c.constructors.foldr (fun ctor h => ctor h) h

/-- `func (c Chain) ThenFunc(fn http.HandlerFunc) http.Handler`. -/
def Chain.ThenFunc (c : Chain Req) (defaultServeMux : Handler Req)
    (fn : Option (Handler Req)) : Handler Req :=
  match fn with
  | none => c.Then defaultServeMux none
  | some fn => c.Then defaultServeMux (some fn)

/-- `func (c Chain) After(endwares ...Endware) Chain`: the receiver's endwares
followed by the given ones, constructors copied via `New`. -/
def Chain.After (c : Chain Req) (endwares : List (Endware Req)) : Chain Req :=
  let newEnds := c.endwares ++ endwares
  let newC := New c.constructors
  { newC with endwares := newEnds }

/-- `func (c Chain) AppendEndware(endwares ...Endware) Chain` =
`New(c.constructors...).After(append(c.endwares, endwares...)...)`. -/
def Chain.AppendEndware (c : Chain Req) (endwares : List (Endware Req)) : Chain Req :=
  (New c.constructors).After (c.endwares ++ endwares)

/-- `func (c Chain) Append(constructors ...Constructor) Chain` builds the
combined constructor list and returns `New(newCons...).AppendEndware(c.endwares...)`. -/
def Chain.Append (c : Chain Req) (constructors : List (Constructor Req)) : Chain Req :=
  let newCons := c.constructors ++ constructors
  (New newCons).AppendEndware c.endwares

/-- `func (c Chain) Extend(chain Chain) Chain` =
`c.Append(chain.constructors...).AppendEndware(chain.endwares...)`. -/
def Chain.Extend (c : Chain Req) (chain : Chain Req) : Chain Req :=
  (c.Append chain.constructors).AppendEndware chain.endwares

/-- The `http.HandlerFunc(fn)` conversion: a plain request-handling function
used as a handler. -/
def httpHandlerFunc (fn : ResponseWriter → Req → ResponseWriter) : Handler Req :=
  fn

/-- `func (c Chain) AfterFuncs(fns ...func(w, r)) Chain`: converts each
function into an `Endware` via `http.HandlerFunc`, then calls `After`. -/
def Chain.AfterFuncs (c : Chain Req)
    (fns : List (ResponseWriter → Req → ResponseWriter)) : Chain Req :=
  let endwares := fns.map (fun fn => httpHandlerFunc fn)
  c.After endwares

/-- `func (c Chain) AppendEndwareFuncs(fns ...func(w, r)) Chain`: converts each
function into an `Endware` via `http.HandlerFunc`, then calls `AppendEndware`. -/
def Chain.AppendEndwareFuncs (c : Chain Req)
    (fns : List (ResponseWriter → Req → ResponseWriter)) : Chain Req :=
  let endwares := fns.map (fun fn => httpHandlerFunc fn)
  c.AppendEndware endwares

/-- The tagging middleware of the test suite: writes its tag, then delegates. -/
def tagMiddleware (tag : String) : Constructor Req :=
  fun h => fun w r => h (w ++ [tag]) r

/-- The tagging endware of the test suite: writes its tag. -/
def tagEndware (tag : String) : Endware Req :=
  fun w _r => w ++ [tag]

/-- The terminal test handler: writes `"app"`. -/
def testApp : Handler Req := fun w _r => w ++ ["app"]

end Alice

namespace Classic

/-- The classic single-file variant: `type Chain struct { constructors []Constructor }`. -/
structure Chain (Req : Type) where
  constructors : List (Alice.Constructor Req)

variable {Req : Type}

/-- Classic `func New(constructors ...Constructor) Chain`. -/
def New (constructors : List (Alice.Constructor Req)) : Chain Req :=
  ⟨constructors⟩

/-- Classic `func (c Chain) Then(h http.Handler) http.Handler`: substitutes
`http.DefaultServeMux` for a `nil` terminal, then runs
`for i := len(c.constructors) - 1; i >= 0; i-- { final = c.constructors[i](final) }`,
i.e. a right fold over the constructors. -/
def Chain.Then (c : Chain Req) (defaultServeMux : Alice.Handler Req)
    (h : Option (Alice.Handler Req)) : Alice.Handler Req :=
  let final := match h with
    | none => defaultServeMux
    | some h => h
  c.constructors.foldr (fun ctor final => ctor final) final

end Classic

namespace Bob

/-- `type RoundTripperFunc func(*http.Request) (*http.Response, error)`:
a round tripper maps a request to a response or an error. -/
abbrev RoundTripper (Req Resp Err : Type) : Type := Req → Except Err Resp

/-- `type Constructor func(http.RoundTripper) http.RoundTripper`. -/
abbrev Constructor (Req Resp Err : Type) : Type :=
  RoundTripper Req Resp Err → RoundTripper Req Resp Err

variable {Req Resp Err : Type}

/-- `type Chain struct { constructors []Constructor }` (transport-level). -/
structure Chain (Req Resp Err : Type) where
  constructors : List (Constructor Req Resp Err)

/-- `func New(constructors ...Constructor) Chain` (transport-level). -/
def New (constructors : List (Constructor Req Resp Err)) : Chain Req Resp Err :=
  ⟨constructors⟩

/-- `func (c Chain) Then(rt http.RoundTripper) http.RoundTripper`: treats `nil`
as `http.DefaultTransport` (passed explicitly), then applies the constructors
in reverse registration order. -/
def Chain.Then (c : Chain Req Resp Err) (defaultTransport : RoundTripper Req Resp Err)
    (rt : Option (RoundTripper Req Resp Err)) : RoundTripper Req Resp Err :=
  let rt := match rt with
    | none => defaultTransport
    | some rt => rt
  c.constructors.foldr (fun ctor rt => ctor rt) rt

/-- `func (c Chain) ThenFunc(fn RoundTripperFunc) http.RoundTripper`. -/
def Chain.ThenFunc (c : Chain Req Resp Err) (defaultTransport : RoundTripper Req Resp Err)
    (fn : Option (RoundTripper Req Resp Err)) : RoundTripper Req Resp Err :=
  match fn with
  | none => c.Then defaultTransport none
  | some fn => c.Then defaultTransport (some fn)

end Bob

namespace Alice

/-- `type ContextualizedHandler interface { ServeHTTP(context.Context, w, r) }`:
a handler that additionally receives a context value. -/
abbrev ContextualizedHandler (Ctx Req : Type) : Type :=
  Ctx → ResponseWriter → Req → ResponseWriter

/-- `type ContextualizedHandlerFunc func(context.Context, w, r)`. -/
abbrev ContextualizedHandlerFunc (Ctx Req : Type) : Type :=
  Ctx → ResponseWriter → Req → ResponseWriter

/-- `type ContextualizedConstructor func(ContextualizedHandler) ContextualizedHandler`. -/
abbrev ContextualizedConstructor (Ctx Req : Type) : Type :=
  ContextualizedHandler Ctx Req → ContextualizedHandler Ctx Req

variable {Ctx Req : Type}

/-- `type ContextualizedChain struct { constructors []ContextualizedConstructor }`. -/
structure ContextualizedChain (Ctx Req : Type) where
  constructors : List (ContextualizedConstructor Ctx Req)

/-- `func NewContextualized(constructors ...ContextualizedConstructor) ContextualizedChain`. -/
def NewContextualized (constructors : List (ContextualizedConstructor Ctx Req)) :
    ContextualizedChain Ctx Req :=
  ⟨constructors⟩

/-- `func (c ContextualizedChain) Append(...)`: copies the receiver's
constructors followed by the given ones into a fresh chain. -/
def ContextualizedChain.Append (c : ContextualizedChain Ctx Req)
    (constructors : List (ContextualizedConstructor Ctx Req)) :
    ContextualizedChain Ctx Req :=
  NewContextualized (c.constructors ++ constructors)

/-- `func (cc ContextualizedChain) Then(fn ContextualizedHandler) ContextualizedHandler`:
a `nil` terminal becomes a handler that discards the context and forwards to
`http.DefaultServeMux`; then the loop
`for i := len(cc.constructors) - 1; i >= 0; i-- { fn = cc.constructors[i](fn) }`
applies the constructors in reverse registration order. -/
def ContextualizedChain.Then (cc : ContextualizedChain Ctx Req)
    (defaultServeMux : Handler Req) (fn : Option (ContextualizedHandler Ctx Req)) :
    ContextualizedHandler Ctx Req :=
  let fn := match fn with
    | none => fun _ctx w r => defaultServeMux w r
    | some fn => fn
  cc.constructors.foldr (fun ctor fn => ctor fn) fn

/-- `func (cc ContextualizedChain) ThenFunc(fn ContextualizedHandlerFunc) ContextualizedHandler`. -/
def ContextualizedChain.ThenFunc (cc : ContextualizedChain Ctx Req)
    (defaultServeMux : Handler Req) (fn : Option (ContextualizedHandlerFunc Ctx Req)) :
    ContextualizedHandler Ctx Req :=
  match fn with
  | none => cc.Then defaultServeMux none
  | some fn => cc.Then defaultServeMux (some fn)

/-- `type ToContextConstructor func(ContextualizedHandler) http.Handler`. -/
abbrev ToContextConstructor (Ctx Req : Type) : Type :=
  ContextualizedHandler Ctx Req → Handler Req

/-- Modelled from the spec: `Contextualize` and the bridge `Append` call a
method `Chain.copy` whose definition is not among the provided sources.  Per
the spec the bridge captures "a copy of the Chain's Constructors", so at this
value level `copy` returns a chain holding the same sequences. -/
def Chain.copy (c : Chain Req) : Chain Req :=
  ⟨c.constructors, c.endwares⟩

/-- `type toContextualizedChain struct { chain Chain; transformer ToContextConstructor; cchain ContextualizedChain }`. -/
structure toContextualizedChain (Ctx Req : Type) where
  chain : Chain Req
  transformer : ToContextConstructor Ctx Req
  cchain : ContextualizedChain Ctx Req

/-- `func (c Chain) Contextualize(transformer ToContextConstructor) toContextualizedChain`:
captures a copy of the chain, the transformer, and the zero-valued (empty)
contextualized chain. -/
def Chain.Contextualize (c : Chain Req) (transformer : ToContextConstructor Ctx Req) :
    toContextualizedChain Ctx Req :=
  { chain := c.copy
    transformer := transformer
    cchain := { constructors := [] } }

/-- `func (tcc toContextualizedChain) Append(constructors ...ContextualizedConstructor)`:
copies the non-context chain and the transformer, appends to the context chain. -/
def toContextualizedChain.Append (tcc : toContextualizedChain Ctx Req)
    (constructors : List (ContextualizedConstructor Ctx Req)) :
    toContextualizedChain Ctx Req :=
  { chain := tcc.chain.copy
    transformer := tcc.transformer
    cchain := tcc.cchain.Append constructors }

/-- `func (tcc toContextualizedChain) Then(cfinal ContextualizedHandler) http.Handler`:
composes the context segment around the terminal, passes the result through the
transformer, then composes the non-context segment around that. -/
def toContextualizedChain.Then (tcc : toContextualizedChain Ctx Req)
    (defaultServeMux : Handler Req) (cfinal : Option (ContextualizedHandler Ctx Req)) :
    Handler Req :=
  let cfinal := tcc.cchain.Then defaultServeMux cfinal
  let final := tcc.transformer cfinal
  tcc.chain.Then defaultServeMux (some final)

/-- `func (tcc toContextualizedChain) ThenFunc(fn ContextualizedHandlerFunc) http.Handler`. -/
def toContextualizedChain.ThenFunc (tcc : toContextualizedChain Ctx Req)
    (defaultServeMux : Handler Req) (fn : Option (ContextualizedHandlerFunc Ctx Req)) :
    Handler Req :=
  match fn with
  | none => tcc.Then defaultServeMux none
  | some fn => tcc.Then defaultServeMux (some fn)

/-- The context-aware tagging middleware of the test suite. -/
def ctxTagMiddleware (tag : String) : ContextualizedConstructor Ctx Req :=
  fun h => fun ctx w r => h ctx (w ++ [tag]) r

/-- The context-aware terminal test handler: writes `"app"`. -/
def ctxTestApp : ContextualizedHandler Ctx Req := fun _ctx w _r => w ++ ["app"]

/-- The transformer of the test suite: writes `"ctx"` and binds the background
context `bg` at the seam. -/
def c2cTransformer (bg : Ctx) : ToContextConstructor Ctx Req :=
  fun next => fun w r => next bg (w ++ ["ctx"]) r

variable {σ : Type}

/-- The bridge with the transformer's resolution-time side effect made
explicit: the transformer returns the converted handler together with an
updated effect state `σ` (e.g. a counter of how many times it has run). -/
structure toContextualizedChainTr (σ Ctx Req : Type) where
  chain : Chain Req
  transformer : ContextualizedHandler Ctx Req → σ → Handler Req × σ
  cchain : ContextualizedChain Ctx Req

/-- `toContextualizedChain.Then` with the transformer's effect threaded: the
context chain composes around the terminal, the transformer is called on the
result, then the plain chain composes around the converted handler. -/
def toContextualizedChainTr.Then (tcc : toContextualizedChainTr σ Ctx Req)
    (defaultServeMux : Handler Req) (cfinal : Option (ContextualizedHandler Ctx Req))
    (s : σ) : Handler Req × σ :=
  let cfinal := tcc.cchain.Then defaultServeMux cfinal
  let fs := tcc.transformer cfinal s
  (tcc.chain.Then defaultServeMux (some fs.1), fs.2)

/-- `toContextualizedChain.ThenFunc` with the transformer's effect threaded. -/
def toContextualizedChainTr.ThenFunc (tcc : toContextualizedChainTr σ Ctx Req)
    (defaultServeMux : Handler Req) (fn : Option (ContextualizedHandlerFunc Ctx Req))
    (s : σ) : Handler Req × σ :=
  match fn with
  | none => tcc.Then defaultServeMux none s
  | some fn => tcc.Then defaultServeMux (some fn) s

/-- `Chain.Then` with each constructor's wrap-time (resolution-time) effect
threaded: the loop `h = c.constructors[len(c.constructors)-1-i](h)` runs with
effectful constructors, last-registered applied first. -/
def ThenTraced (defaultServeMux : Handler Req)
    (constructorsTr : List (Handler Req → σ → Handler Req × σ))
    (endwares : List (Endware Req)) (h : Option (Handler Req)) (s : σ) :
    Handler Req × σ :=
  let h := match h with
    | none => defaultServeMux
    | some h => h
  let h := if endwares.length > 0 then (endwareHandler.mk h endwares).ServeHTTP else h
  constructorsTr.foldr (fun ctor hs => ctor hs.1 hs.2) (h, s)

end Alice

namespace Alice.Mem

/-!
A second embedding of `chain.go` in which Go slices carry their backing-array
identity, so that the spec's storage claims ("fresh copy", "no shared backing
storage", "never mutated in place") become statable.  A heap maps array ids to
the elements written so far; slice operations (`make`, `append`) follow Go's
allocation behavior.
-/

/-- A Go slice header: the id of its backing array, its length and capacity.
Every slice in this code views its array from offset 0. -/
structure GoSlice where
  id : Nat
  len : Nat
  cap : Nat
deriving DecidableEq, Repr

/-- The nil slice.  Array id 0 is reserved for it and always holds no elements. -/
def nilSlice : GoSlice := ⟨0, 0, 0⟩

/-- A heap of backing arrays for one element type: the next fresh array id and,
per array id, the elements written so far. -/
structure Heap (α : Type) where
  next : Nat
  mem : Nat → List α

/-- The elements a slice exposes: the first `len` elements of its array. -/
def GoSlice.elems (h : Heap α) (s : GoSlice) : List α :=
  (h.mem s.id).take s.len

/-- Go's `make([]T, 0, c)`: a fresh empty array with capacity `c`. -/
def goMake (h : Heap α) (c : Nat) : GoSlice × Heap α :=
  (⟨h.next, 0, c⟩,
   ⟨h.next + 1, fun i => if i = h.next then [] else h.mem i⟩)

/-- Go's `append(s, vals...)`.  If the result fits within `s`'s capacity, the
backing array is written in place past position `s.len`; otherwise a fresh
array is allocated.  (Go may round a fresh capacity up to a size class; on
every path of this code a slice that is appended to again was created with
capacity equal to its final length, so using the exact capacity here yields
the same aliasing behavior.) -/
def goAppend (h : Heap α) (s : GoSlice) (vals : List α) : GoSlice × Heap α :=
  if s.len + vals.length ≤ s.cap then
    (⟨s.id, s.len + vals.length, s.cap⟩,
     ⟨h.next, fun i => if i = s.id then (h.mem s.id).take s.len ++ vals else h.mem i⟩)
  else
    (⟨h.next, s.len + vals.length, s.len + vals.length⟩,
     ⟨h.next + 1, fun i => if i = h.next then (h.mem s.id).take s.len ++ vals else h.mem i⟩)

/-- The state of both heaps: one for constructor arrays, one for endware arrays
(Go arrays of distinct element types are distinct allocations). -/
structure MemState (C E : Type) where
  hc : Heap C
  he : Heap E

/-- `Chain` at the storage level: the two slice headers. -/
structure MemChain where
  constructors : GoSlice
  endwares : GoSlice
deriving DecidableEq, Repr

variable {C E : Type}

/-- `func New(constructors ...Constructor) Chain` at the storage level:
`Chain{append(([]Constructor)(nil), constructors...), ([]Endware)(nil)}`. -/
def NewM (cs : List C) (st : MemState C E) : MemChain × MemState C E :=
  let r := goAppend st.hc nilSlice cs
  (⟨r.1, nilSlice⟩, ⟨r.2, st.he⟩)

/-- `func (c Chain) After(endwares ...Endware) Chain` at the storage level:
`newEnds := make([]Endware, 0, len(c.endwares)+len(endwares))`, two appends,
then `newC := New(c.constructors...)` and `newC.endwares = newEnds`. -/
def AfterM (c : MemChain) (ends : List E) (st : MemState C E) :
    MemChain × MemState C E :=
  let m := goMake st.he (c.endwares.len + ends.length)
  let a1 := goAppend m.2 m.1 (c.endwares.elems m.2)
  let a2 := goAppend a1.2 a1.1 ends
  let n := NewM (c.constructors.elems st.hc) ⟨st.hc, a2.2⟩
  (⟨n.1.constructors, a2.1⟩, n.2)

/-- `func (c Chain) AppendEndware(endwares ...Endware) Chain` at the storage
level: `New(c.constructors...).After(append(c.endwares, endwares...)...)`;
the receiver expression is evaluated before the argument. -/
def AppendEndwareM (c : MemChain) (ends : List E) (st : MemState C E) :
    MemChain × MemState C E :=
  let n := NewM (c.constructors.elems st.hc) st
  let a := goAppend n.2.he c.endwares ends
  AfterM n.1 (a.1.elems a.2) ⟨n.2.hc, a.2⟩

/-- `func (c Chain) Append(constructors ...Constructor) Chain` at the storage
level: `newCons := make(...)`, two appends, then
`New(newCons...).AppendEndware(c.endwares...)`. -/
def AppendM (c : MemChain) (cs : List C) (st : MemState C E) :
    MemChain × MemState C E :=
  let m := goMake st.hc (c.constructors.len + cs.length)
  let a1 := goAppend m.2 m.1 (c.constructors.elems m.2)
  let a2 := goAppend a1.2 a1.1 cs
  let n := NewM (a2.1.elems a2.2) ⟨a2.2, st.he⟩
  AppendEndwareM n.1 (c.endwares.elems n.2.he) n.2

/-- `func (c Chain) Extend(chain Chain) Chain` at the storage level:
`c.Append(chain.constructors...).AppendEndware(chain.endwares...)`; the
argument `chain.constructors` is read before `Append` runs, the argument
`chain.endwares` after. -/
def ExtendM (c other : MemChain) (st : MemState C E) :
    MemChain × MemState C E :=
  let a := AppendM c (other.constructors.elems st.hc) st
  AppendEndwareM a.1 (other.endwares.elems a.2.he) a.2

/-- `func (c Chain) Then(h http.Handler) http.Handler` at the storage level:
reads the chain's slices, never writes, and returns the heaps as received. -/
def ThenM {Req : Type} (c : MemChain) (defaultServeMux : Handler Req)
    (h : Option (Handler Req))
    (st : MemState (Constructor Req) (Endware Req)) :
    Handler Req × MemState (Constructor Req) (Endware Req) :=
  let h := match h with
    | none => defaultServeMux
    | some h => h
  let h := if c.endwares.len > 0 then
      (endwareHandler.mk h (c.endwares.elems st.he)).ServeHTTP
    else h
  ((c.constructors.elems st.hc).foldr (fun ctor h => ctor h) h, st)

/-- A well-formed heap: at least one id has been handed out (so fresh ids are
never the nil id 0) and the nil array is empty. -/
def Heap.wf0 (h : Heap α) : Prop :=
  1 ≤ h.next ∧ h.mem 0 = []

/-- A slice valid in a heap: its array is allocated, its length is within the
elements written, within its capacity, and only the nil slice (empty, zero
capacity) uses id 0. -/
def GoSlice.wf (h : Heap α) (s : GoSlice) : Prop :=
  s.id < h.next ∧ s.len ≤ (h.mem s.id).length ∧ s.len ≤ s.cap ∧
    (s.id = 0 → s.len = 0 ∧ s.cap = 0)

/-- Two slices share no backing storage: distinct arrays, or one of them is
empty and occupies no storage. -/
def GoSlice.disjoint (s t : GoSlice) : Prop :=
  s.id ≠ t.id ∨ s.len = 0 ∨ t.len = 0

/-- A state transition preserves the receiver chain: its observable constructor
and endware sequences read the same afterwards. -/
def preservesChain (st st' : MemState C E) (c : MemChain) : Prop :=
  c.constructors.elems st'.hc = c.constructors.elems st.hc ∧
  c.endwares.elems st'.he = c.endwares.elems st.he

/-- A chain is fresh for a state: each of its sequences either lives on an
array not yet allocated in that state, or is empty. -/
def freshChain (st : MemState C E) (c : MemChain) : Prop :=
  (st.hc.next ≤ c.constructors.id ∨ c.constructors.len = 0) ∧
  (st.he.next ≤ c.endwares.id ∨ c.endwares.len = 0)

/-- `h'` evolves from `h` without touching any array allocated in `h`. -/
def Heap.keeps (h h' : Heap α) : Prop :=
  h.next ≤ h'.next ∧ ∀ i, i < h.next → h'.mem i = h.mem i

/-- `h'` evolves from `h` touching, among the arrays allocated in `h`, at most
the array of `s`, and there only positions past `s.len`. -/
def Heap.keepsExcept (h h' : Heap α) (s : GoSlice) : Prop :=
  h.next ≤ h'.next ∧ (∀ i, i < h.next → i ≠ s.id → h'.mem i = h.mem i) ∧
  (h'.mem s.id).take s.len = (h.mem s.id).take s.len

lemma take_append_of_le {α : Type} (xs ys : List α) (n : Nat) (h : n ≤ xs.length) :
    (xs.take n ++ ys).take n = xs.take n := by
  rw [List.take_append_eq_append_take, List.length_take, Nat.min_eq_left h]
  simp

lemma take_len_append {α : Type} (xs ys : List α) (n : Nat) (h : n ≤ xs.length) :
    (xs.take n ++ ys).take (n + ys.length) = xs.take n ++ ys := by
  apply List.take_of_length_le
  simp [List.length_take, Nat.min_eq_left h]

lemma Heap.keeps_refl (h : Heap α) : h.keeps h :=
  ⟨Nat.le_refl _, fun _ _ => rfl⟩

lemma Heap.keeps_trans {h h' h'' : Heap α} (k1 : h.keeps h') (k2 : h'.keeps h'') :
    h.keeps h'' :=
  ⟨Nat.le_trans k1.1 k2.1,
   fun i hi => (k2.2 i (Nat.lt_of_lt_of_le hi k1.1)).trans (k1.2 i hi)⟩

lemma Heap.keeps.toExcept {h h' : Heap α} (k : h.keeps h') {s : GoSlice}
    (hs : s.id < h.next) : h.keepsExcept h' s :=
  ⟨k.1, fun i hi _ => k.2 i hi, by rw [k.2 s.id hs]⟩

lemma Heap.keepsExcept_keeps_trans {h h' h'' : Heap α} {s : GoSlice}
    (k1 : h.keepsExcept h' s) (k2 : h'.keeps h'') (hs : s.id < h.next) :
    h.keepsExcept h'' s := by
  refine ⟨Nat.le_trans k1.1 k2.1, fun i hi hne => ?_, ?_⟩
  · rw [k2.2 i (Nat.lt_of_lt_of_le hi k1.1), k1.2.1 i hi hne]
  · rw [k2.2 s.id (Nat.lt_of_lt_of_le hs k1.1), k1.2.2]

lemma Heap.keeps_keepsExcept_trans {h h' h'' : Heap α} {s : GoSlice}
    (k1 : h.keeps h') (k2 : h'.keepsExcept h'' s) (hs : s.id < h.next) :
    h.keepsExcept h'' s := by
  refine ⟨Nat.le_trans k1.1 k2.1, fun i hi hne => ?_, ?_⟩
  · rw [k2.2.1 i (Nat.lt_of_lt_of_le hi k1.1) hne, k1.2 i hi]
  · rw [k2.2.2, k1.2 s.id hs]

lemma Heap.keepsExcept_trans_fresh {h h' h'' : Heap α} {s t : GoSlice}
    (k1 : h.keepsExcept h' s) (k2 : h'.keepsExcept h'' t)
    (hs : s.id < h.next) (ht : h.next ≤ t.id) :
    h.keepsExcept h'' s := by
  refine ⟨Nat.le_trans k1.1 k2.1, fun i hi hne => ?_, ?_⟩
  · rw [k2.2.1 i (Nat.lt_of_lt_of_le hi k1.1)
      (Nat.ne_of_lt (Nat.lt_of_lt_of_le hi ht)), k1.2.1 i hi hne]
  · rw [k2.2.1 s.id (Nat.lt_of_lt_of_le hs k1.1)
      (Nat.ne_of_lt (Nat.lt_of_lt_of_le hs ht)), k1.2.2]

lemma GoSlice.elems_of_keeps {h h' : Heap α} (k : h.keeps h') {t : GoSlice}
    (ht : t.id < h.next) : t.elems h' = t.elems h := by
  unfold GoSlice.elems
  rw [k.2 t.id ht]

lemma GoSlice.elems_of_keepsExcept {h h' : Heap α} {ex : GoSlice}
    (k : h.keepsExcept h' ex) {t : GoSlice} (ht : t.id < h.next)
    (hcase : t.id = ex.id → t.len ≤ ex.len) : t.elems h' = t.elems h := by
  unfold GoSlice.elems
  by_cases hid : t.id = ex.id
  · have hle := hcase hid
    rw [hid]
    calc (h'.mem ex.id).take t.len
        = ((h'.mem ex.id).take ex.len).take t.len := by
          rw [List.take_take, Nat.min_eq_left hle]
      _ = ((h.mem ex.id).take ex.len).take t.len := by rw [k.2.2]
      _ = (h.mem ex.id).take t.len := by
          rw [List.take_take, Nat.min_eq_left hle]
  · rw [k.2.1 t.id ht hid]

lemma GoSlice.wf_of_keeps {h h' : Heap α} (k : h.keeps h') {t : GoSlice}
    (ht : t.wf h) : t.wf h' := by
  obtain ⟨h1, h2, h3, h4⟩ := ht
  exact ⟨Nat.lt_of_lt_of_le h1 k.1, by rw [k.2 t.id h1]; exact h2, h3, h4⟩

lemma GoSlice.wf_of_keepsExcept {h h' : Heap α} {ex : GoSlice}
    (k : h.keepsExcept h' ex) {t : GoSlice} (ht : t.wf h)
    (hcase : t.id = ex.id → t.len ≤ ex.len) : t.wf h' := by
  obtain ⟨h1, h2, h3, h4⟩ := ht
  refine ⟨Nat.lt_of_lt_of_le h1 k.1, ?_, h3, h4⟩
  by_cases hid : t.id = ex.id
  · have hle := hcase hid
    have e1 : t.len ≤ ((h.mem ex.id).take ex.len).length := by
      rw [List.length_take]
      rw [hid] at h2
      omega
    rw [← k.2.2] at e1
    have e2 : ((h'.mem ex.id).take ex.len).length ≤ (h'.mem ex.id).length := by
      rw [List.length_take]
      omega
    rw [hid]
    omega
  · rw [k.2.1 t.id h1 hid]; exact h2

lemma goMake_spec {α : Type} (h : Heap α) (cp : Nat) (hwf0 : h.wf0) :
    (goMake h cp).2.next = h.next + 1 ∧ (goMake h cp).2.wf0 ∧
    h.keeps (goMake h cp).2 ∧
    (goMake h cp).1 = ⟨h.next, 0, cp⟩ ∧ (goMake h cp).2.mem h.next = [] := by
  obtain ⟨h1, hm0⟩ := hwf0
  refine ⟨rfl, ⟨?_, ?_⟩, ⟨Nat.le_succ _, fun i hi => ?_⟩, rfl, ?_⟩
  · show 1 ≤ h.next + 1
    omega
  · show (if (0 : Nat) = h.next then ([] : List α) else h.mem 0) = []
    rw [if_neg (by omega)]; exact hm0
  · show (if i = h.next then ([] : List α) else h.mem i) = h.mem i
    rw [if_neg (Nat.ne_of_lt hi)]
  · show (if h.next = h.next then ([] : List α) else h.mem h.next) = []
    rw [if_pos rfl]

lemma goAppend_spec {α : Type} (h : Heap α) (s : GoSlice) (vals : List α)
    (hwf0 : h.wf0) (hs : s.wf h) :
    h.next ≤ (goAppend h s vals).2.next ∧
    (goAppend h s vals).2.wf0 ∧
    (∀ i, i < h.next → i ≠ s.id → (goAppend h s vals).2.mem i = h.mem i) ∧
    ((goAppend h s vals).2.mem s.id).take s.len = (h.mem s.id).take s.len ∧
    (goAppend h s vals).1.len = s.len + vals.length ∧
    (goAppend h s vals).1.elems (goAppend h s vals).2 = s.elems h ++ vals ∧
    (goAppend h s vals).1.wf (goAppend h s vals).2 ∧
    (h.next ≤ (goAppend h s vals).1.id ∨ (goAppend h s vals).1.id = s.id) := by
  obtain ⟨h1, hm0⟩ := hwf0
  obtain ⟨hid, hlen, hcap, hnil⟩ := hs
  by_cases hfit : s.len + vals.length ≤ s.cap
  · have hr : goAppend h s vals =
        (⟨s.id, s.len + vals.length, s.cap⟩,
         ⟨h.next, fun i => if i = s.id then (h.mem s.id).take s.len ++ vals
           else h.mem i⟩) := by
      rw [goAppend, if_pos hfit]
    rw [hr]
    refine ⟨Nat.le_refl _, ⟨h1, ?_⟩, fun i _ hne => ?_, ?_, rfl, ?_, ?_, Or.inr rfl⟩
    · show (if (0 : Nat) = s.id then (h.mem s.id).take s.len ++ vals else h.mem 0) = []
      by_cases h0 : (0 : Nat) = s.id
      · obtain ⟨hl0, hc0⟩ := hnil h0.symm
        have hv : vals = [] := List.eq_nil_of_length_eq_zero (by omega)
        rw [if_pos h0, ← h0, hl0, hv]
        simp
      · rw [if_neg h0]; exact hm0
    · show (if i = s.id then (h.mem s.id).take s.len ++ vals else h.mem i) = h.mem i
      rw [if_neg hne]
    · show ((if s.id = s.id then (h.mem s.id).take s.len ++ vals
          else h.mem s.id)).take s.len = (h.mem s.id).take s.len
      rw [if_pos rfl]
      exact take_append_of_le _ _ _ hlen
    · show ((if s.id = s.id then (h.mem s.id).take s.len ++ vals
          else h.mem s.id)).take (s.len + vals.length)
        = (h.mem s.id).take s.len ++ vals
      rw [if_pos rfl]
      exact take_len_append _ _ _ hlen
    · refine ⟨hid, ?_, hfit, fun h0 => ?_⟩
      · show s.len + vals.length ≤ (if s.id = s.id then (h.mem s.id).take s.len ++ vals
          else h.mem s.id).length
        rw [if_pos rfl, List.length_append, List.length_take, Nat.min_eq_left hlen]
      · have h0' : s.id = 0 := h0
        obtain ⟨hl0, hc0⟩ := hnil h0'
        exact ⟨show s.len + vals.length = 0 by omega, hc0⟩
  · have hr : goAppend h s vals =
        (⟨h.next, s.len + vals.length, s.len + vals.length⟩,
         ⟨h.next + 1, fun i => if i = h.next then (h.mem s.id).take s.len ++ vals
           else h.mem i⟩) := by
      rw [goAppend, if_neg hfit]
    rw [hr]
    have hne0 : s.id ≠ h.next := Nat.ne_of_lt hid
    refine ⟨Nat.le_succ _, ⟨h1.trans (Nat.le_succ _), ?_⟩, fun i hi _ => ?_, ?_, rfl,
      ?_, ?_, Or.inl (Nat.le_refl _)⟩
    · show (if (0 : Nat) = h.next then (h.mem s.id).take s.len ++ vals else h.mem 0) = []
      rw [if_neg (show (0 : Nat) ≠ h.next by omega)]; exact hm0
    · show (if i = h.next then (h.mem s.id).take s.len ++ vals else h.mem i) = h.mem i
      rw [if_neg (Nat.ne_of_lt hi)]
    · show ((if s.id = h.next then (h.mem s.id).take s.len ++ vals
          else h.mem s.id)).take s.len = (h.mem s.id).take s.len
      rw [if_neg hne0]
    · show ((if h.next = h.next then (h.mem s.id).take s.len ++ vals
          else h.mem h.next)).take (s.len + vals.length)
        = (h.mem s.id).take s.len ++ vals
      rw [if_pos rfl]
      exact take_len_append _ _ _ hlen
    · refine ⟨Nat.lt_succ_self _, ?_, Nat.le_refl _, fun h0 => ?_⟩
      · show s.len + vals.length ≤ (if h.next = h.next then (h.mem s.id).take s.len ++ vals
          else h.mem h.next).length
        rw [if_pos rfl, List.length_append, List.length_take, Nat.min_eq_left hlen]
      · have h0' : h.next = 0 := h0
        exact absurd h0' (by omega)

lemma nilSlice_wf {α : Type} (h : Heap α) (h1 : 1 ≤ h.next) : nilSlice.wf h :=
  ⟨h1, Nat.zero_le _, Nat.le_refl _, fun _ => ⟨rfl, rfl⟩⟩

lemma nilSlice_elems {α : Type} (h : Heap α) : nilSlice.elems h = [] := by
  simp [GoSlice.elems, nilSlice]

lemma NewM_spec {C E : Type} (cs : List C) (st : MemState C E) (hwc : st.hc.wf0) :
    (NewM cs st).2.he = st.he ∧
    st.hc.keeps (NewM cs st).2.hc ∧
    (NewM cs st).2.hc.wf0 ∧
    (NewM cs st).1.constructors.wf (NewM cs st).2.hc ∧
    (NewM cs st).1.constructors.elems (NewM cs st).2.hc = cs ∧
    (NewM cs st).1.constructors.len = cs.length ∧
    (st.hc.next ≤ (NewM cs st).1.constructors.id ∨ (NewM cs st).1.constructors.len = 0) ∧
    (NewM cs st).1.endwares = nilSlice := by
  obtain ⟨a1, a2, a3, a4, a5, a6, a7, a8⟩ :=
    goAppend_spec st.hc nilSlice cs hwc (nilSlice_wf st.hc hwc.1)
  have hkeeps : st.hc.keeps (goAppend st.hc nilSlice cs).2 := by
    refine ⟨a1, fun i hi => ?_⟩
    by_cases h0 : i = 0
    · subst h0
      rw [a2.2, hwc.2]
    · exact a3 i hi h0
  have helems : (goAppend st.hc nilSlice cs).1.elems (goAppend st.hc nilSlice cs).2 = cs := by
    rw [a6, nilSlice_elems]
    rfl
  have hlen : (goAppend st.hc nilSlice cs).1.len = cs.length := by
    rw [a5]
    simp [nilSlice]
  have hfresh : st.hc.next ≤ (goAppend st.hc nilSlice cs).1.id ∨
      (goAppend st.hc nilSlice cs).1.len = 0 := by
    rcases a8 with h | h
    · exact Or.inl h
    · exact Or.inr (a7.2.2.2 h).1
  exact ⟨rfl, hkeeps, a2, a7, helems, hlen, hfresh, rfl⟩

lemma AfterM_spec {C E : Type} (c : MemChain) (ends : List E) (st : MemState C E)
    (hwc : st.hc.wf0) (hwe : st.he.wf0)
    (hcw : c.constructors.wf st.hc) (hew : c.endwares.wf st.he) :
    st.hc.keeps (AfterM c ends st).2.hc ∧
    st.he.keeps (AfterM c ends st).2.he ∧
    (AfterM c ends st).2.hc.wf0 ∧
    (AfterM c ends st).2.he.wf0 ∧
    (AfterM c ends st).1.constructors.wf (AfterM c ends st).2.hc ∧
    (AfterM c ends st).1.endwares.wf (AfterM c ends st).2.he ∧
    (AfterM c ends st).1.constructors.elems (AfterM c ends st).2.hc
      = c.constructors.elems st.hc ∧
    (AfterM c ends st).1.endwares.elems (AfterM c ends st).2.he
      = c.endwares.elems st.he ++ ends ∧
    (st.hc.next ≤ (AfterM c ends st).1.constructors.id ∨
      (AfterM c ends st).1.constructors.len = 0) ∧
    st.he.next ≤ (AfterM c ends st).1.endwares.id := by
  have hwe1 := hwe.1
  set m := goMake st.he (c.endwares.len + ends.length) with hm
  set a1 := goAppend m.2 m.1 (c.endwares.elems m.2) with ha1
  set a2 := goAppend a1.2 a1.1 ends with ha2
  set n := NewM (c.constructors.elems st.hc) (⟨st.hc, a2.2⟩ : MemState C E) with hn
  have hA : AfterM c ends st = (⟨n.1.constructors, a2.1⟩, n.2) := rfl
  rw [hA]
  simp only []
  obtain ⟨m1, m2, m3, m4, m5⟩ := goMake_spec st.he (c.endwares.len + ends.length) hwe
  rw [← hm] at m1 m2 m3 m4 m5
  have hm1wf : m.1.wf m.2 := by
    rw [m4]
    refine ⟨?_, ?_, ?_, fun h0 => ?_⟩
    · show st.he.next < m.2.next
      rw [m1]
      exact Nat.lt_succ_self _
    · exact Nat.zero_le _
    · exact Nat.zero_le _
    · exact absurd (show st.he.next = 0 from h0) (by omega)
  have hm1id : m.1.id = st.he.next := by rw [m4]
  obtain ⟨b1, b2, b3, b4, b5, b6, b7, b8⟩ :=
    goAppend_spec m.2 m.1 (c.endwares.elems m.2) m2 hm1wf
  rw [← ha1] at b1 b2 b3 b4 b5 b6 b7 b8
  obtain ⟨c1, c2, c3, c4, c5, c6, c7, c8⟩ := goAppend_spec a1.2 a1.1 ends b2 b7
  rw [← ha2] at c1 c2 c3 c4 c5 c6 c7 c8
  obtain ⟨n1, n2, n3, n4, n5, n6, n7, n8⟩ :=
    NewM_spec (c.constructors.elems st.hc) (⟨st.hc, a2.2⟩ : MemState C E) hwc
  rw [← hn] at n1 n2 n3 n4 n5 n6 n7 n8
  have hev : c.endwares.elems m.2 = c.endwares.elems st.he :=
    GoSlice.elems_of_keeps m3 hew.1
  have hm1elems : m.1.elems m.2 = [] := by
    rw [m4]
    simp [GoSlice.elems]
  have hewid := hew.1
  clear_value n a2 a1 m
  have ha11id : st.he.next ≤ a1.1.id := by
    rcases b8 with h | h
    · omega
    · rw [hm1id] at h
      omega
  have ha21id : st.he.next ≤ a2.1.id := by
    rcases c8 with h | h
    · omega
    · omega
  have hkeepsE : st.he.keeps a2.2 := by
    refine ⟨by omega, fun i hi => ?_⟩
    have e1 : a2.2.mem i = a1.2.mem i := c3 i (by omega) (by omega)
    have e2 : a1.2.mem i = m.2.mem i := b3 i (by omega) (by rw [hm1id]; omega)
    rw [e1, e2, m3.2 i hi]
  have helemsE : a2.1.elems a2.2 = c.endwares.elems st.he ++ ends := by
    rw [c6, b6, hev, hm1elems, List.nil_append]
  refine ⟨n2, ?_, n3, ?_, n4, ?_, n5, ?_, n7, ha21id⟩
  · rw [n1]
    exact hkeepsE
  · rw [n1]
    exact c2
  · rw [n1]
    exact c7
  · rw [n1]
    exact helemsE

lemma AppendEndwareM_spec {C E : Type} (c : MemChain) (ends : List E) (st : MemState C E)
    (hwc : st.hc.wf0) (hwe : st.he.wf0)
    (hcw : c.constructors.wf st.hc) (hew : c.endwares.wf st.he) :
    st.hc.keeps (AppendEndwareM c ends st).2.hc ∧
    st.he.keepsExcept (AppendEndwareM c ends st).2.he c.endwares ∧
    (AppendEndwareM c ends st).2.hc.wf0 ∧
    (AppendEndwareM c ends st).2.he.wf0 ∧
    (AppendEndwareM c ends st).1.constructors.wf (AppendEndwareM c ends st).2.hc ∧
    (AppendEndwareM c ends st).1.endwares.wf (AppendEndwareM c ends st).2.he ∧
    (AppendEndwareM c ends st).1.constructors.elems (AppendEndwareM c ends st).2.hc
      = c.constructors.elems st.hc ∧
    (AppendEndwareM c ends st).1.endwares.elems (AppendEndwareM c ends st).2.he
      = c.endwares.elems st.he ++ ends ∧
    (st.hc.next ≤ (AppendEndwareM c ends st).1.constructors.id ∨
      (AppendEndwareM c ends st).1.constructors.len = 0) ∧
    st.he.next ≤ (AppendEndwareM c ends st).1.endwares.id := by
  set n := NewM (c.constructors.elems st.hc) st with hn
  set a := goAppend n.2.he c.endwares ends with ha
  have hA : AppendEndwareM c ends st
      = AfterM n.1 (a.1.elems a.2) (⟨n.2.hc, a.2⟩ : MemState C E) := rfl
  rw [hA]
  obtain ⟨n1, n2, n3, n4, n5, n6, n7, n8⟩ :=
    NewM_spec (c.constructors.elems st.hc) st hwc
  rw [← hn] at n1 n2 n3 n4 n5 n6 n7 n8
  rw [n1] at ha
  obtain ⟨g1, g2, g3, g4, g5, g6, g7, g8⟩ := goAppend_spec st.he c.endwares ends hwe hew
  rw [← ha] at g1 g2 g3 g4 g5 g6 g7 g8
  have hnend : n.1.endwares.wf (⟨n.2.hc, a.2⟩ : MemState C E).he := by
    rw [n8]
    exact nilSlice_wf a.2 g2.1
  obtain ⟨f1, f2, f3, f4, f5, f6, f7, f8, f9, f10⟩ :=
    AfterM_spec n.1 (a.1.elems a.2) (⟨n.2.hc, a.2⟩ : MemState C E) n3 g2 n4 hnend
  rw [n8, nilSlice_elems, List.nil_append] at f8
  have hkE : st.he.keepsExcept a.2 c.endwares := ⟨g1, g3, g4⟩
  have hf2 : a.2.keeps (AfterM n.1 (a.1.elems a.2)
      (⟨n.2.hc, a.2⟩ : MemState C E)).2.he := f2
  have hf9 : n.2.hc.next ≤ (AfterM n.1 (a.1.elems a.2)
        (⟨n.2.hc, a.2⟩ : MemState C E)).1.constructors.id ∨
      (AfterM n.1 (a.1.elems a.2)
        (⟨n.2.hc, a.2⟩ : MemState C E)).1.constructors.len = 0 := f9
  have hf10 : a.2.next ≤ (AfterM n.1 (a.1.elems a.2)
      (⟨n.2.hc, a.2⟩ : MemState C E)).1.endwares.id := f10
  have hn2next := n2.1
  clear_value a n
  refine ⟨Heap.keeps_trans n2 f1,
    Heap.keepsExcept_keeps_trans hkE hf2 hew.1, f3, f4, f5, f6, f7.trans n5,
    f8.trans g6, ?_, by omega⟩
  rcases hf9 with h | h
  · exact Or.inl (by omega)
  · exact Or.inr h

lemma AppendM_spec {C E : Type} (c : MemChain) (cs : List C) (st : MemState C E)
    (hwc : st.hc.wf0) (hwe : st.he.wf0)
    (hcw : c.constructors.wf st.hc) (hew : c.endwares.wf st.he) :
    st.hc.keeps (AppendM c cs st).2.hc ∧
    st.he.keepsExcept (AppendM c cs st).2.he nilSlice ∧
    (AppendM c cs st).2.hc.wf0 ∧
    (AppendM c cs st).2.he.wf0 ∧
    (AppendM c cs st).1.constructors.wf (AppendM c cs st).2.hc ∧
    (AppendM c cs st).1.endwares.wf (AppendM c cs st).2.he ∧
    (AppendM c cs st).1.constructors.elems (AppendM c cs st).2.hc
      = c.constructors.elems st.hc ++ cs ∧
    (AppendM c cs st).1.endwares.elems (AppendM c cs st).2.he
      = c.endwares.elems st.he ∧
    (st.hc.next ≤ (AppendM c cs st).1.constructors.id ∨
      (AppendM c cs st).1.constructors.len = 0) ∧
    st.he.next ≤ (AppendM c cs st).1.endwares.id := by
  have hwc1 := hwc.1
  set m := goMake st.hc (c.constructors.len + cs.length) with hm
  set a1 := goAppend m.2 m.1 (c.constructors.elems m.2) with ha1
  set a2 := goAppend a1.2 a1.1 cs with ha2
  set n := NewM (a2.1.elems a2.2) (⟨a2.2, st.he⟩ : MemState C E) with hn
  have hA : AppendM c cs st
      = AppendEndwareM n.1 (c.endwares.elems n.2.he) n.2 := rfl
  rw [hA]
  obtain ⟨m1, m2, m3, m4, m5⟩ := goMake_spec st.hc (c.constructors.len + cs.length) hwc
  rw [← hm] at m1 m2 m3 m4 m5
  have hm1wf : m.1.wf m.2 := by
    rw [m4]
    refine ⟨?_, ?_, ?_, fun h0 => ?_⟩
    · show st.hc.next < m.2.next
      rw [m1]
      exact Nat.lt_succ_self _
    · exact Nat.zero_le _
    · exact Nat.zero_le _
    · exact absurd (show st.hc.next = 0 from h0) (by omega)
  have hm1id : m.1.id = st.hc.next := by rw [m4]
  obtain ⟨b1, b2, b3, b4, b5, b6, b7, b8⟩ :=
    goAppend_spec m.2 m.1 (c.constructors.elems m.2) m2 hm1wf
  rw [← ha1] at b1 b2 b3 b4 b5 b6 b7 b8
  obtain ⟨c1, c2, c3, c4, c5, c6, c7, c8⟩ := goAppend_spec a1.2 a1.1 cs b2 b7
  rw [← ha2] at c1 c2 c3 c4 c5 c6 c7 c8
  have hev : c.constructors.elems m.2 = c.constructors.elems st.hc :=
    GoSlice.elems_of_keeps m3 hcw.1
  have hm1elems : m.1.elems m.2 = [] := by
    rw [m4]
    simp [GoSlice.elems]
  have ha2elems : a2.1.elems a2.2 = c.constructors.elems st.hc ++ cs := by
    rw [c6, b6, hev, hm1elems, List.nil_append]
  obtain ⟨n1, n2, n3, n4, n5, n6, n7, n8⟩ :=
    NewM_spec (a2.1.elems a2.2) (⟨a2.2, st.he⟩ : MemState C E) c2
  rw [← hn] at n1 n2 n3 n4 n5 n6 n7 n8
  have hnend : n.1.endwares.wf n.2.he := by
    rw [n8]
    exact nilSlice_wf n.2.he hwe.1
  obtain ⟨f1, f2, f3, f4, f5, f6, f7, f8, f9, f10⟩ :=
    AppendEndwareM_spec n.1 (c.endwares.elems n.2.he) n.2 n3 hwe n4 hnend
  rw [n8] at f2
  rw [n8, nilSlice_elems, List.nil_append] at f8
  have hf2 : st.he.keepsExcept
      (AppendEndwareM n.1 (c.endwares.elems n.2.he) n.2).2.he nilSlice := f2
  have hf8 : (AppendEndwareM n.1 (c.endwares.elems n.2.he) n.2).1.endwares.elems
      (AppendEndwareM n.1 (c.endwares.elems n.2.he) n.2).2.he
      = c.endwares.elems st.he := f8
  have hf10 : st.he.next ≤
      (AppendEndwareM n.1 (c.endwares.elems n.2.he) n.2).1.endwares.id := f10
  have hkeepsC : st.hc.keeps a2.2 := by
    have ha11id : st.hc.next ≤ a1.1.id := by
      rcases b8 with h | h
      · rw [m1] at h
        omega
      · rw [hm1id] at h
        omega
    refine ⟨by rw [m1] at b1; omega, fun i hi => ?_⟩
    have e1 : a2.2.mem i = a1.2.mem i := by
      refine c3 i ?_ ?_
      · rw [m1] at b1
        omega
      · omega
    have e2 : a1.2.mem i = m.2.mem i := by
      refine b3 i ?_ ?_
      · rw [m1]
        omega
      · rw [hm1id]
        omega
    rw [e1, e2, m3.2 i hi]
  have hf1 : a2.2.keeps (AppendEndwareM n.1 (c.endwares.elems n.2.he) n.2).2.hc :=
    Heap.keeps_trans n2 f1
  have hf9 : a2.2.next ≤ (AppendEndwareM n.1 (c.endwares.elems n.2.he)
        n.2).1.constructors.id ∨
      (AppendEndwareM n.1 (c.endwares.elems n.2.he) n.2).1.constructors.len = 0 := by
    rcases f9 with h | h
    · exact Or.inl (Nat.le_trans n2.1 h)
    · exact Or.inr h
  have hkeepsC2 := hkeepsC.1
  clear_value n a2 a1 m
  refine ⟨Heap.keeps_trans hkeepsC hf1, hf2, f3, f4, f5, f6,
    f7.trans (n5.trans ha2elems), hf8, ?_, hf10⟩
  rcases hf9 with h | h
  · exact Or.inl (by omega)
  · exact Or.inr h

set_option maxHeartbeats 1000000 in
lemma ExtendM_spec {C E : Type} (c other : MemChain) (st : MemState C E)
    (hwc : st.hc.wf0) (hwe : st.he.wf0)
    (hcw : c.constructors.wf st.hc) (hew : c.endwares.wf st.he)
    (hocw : other.constructors.wf st.hc) (hoew : other.endwares.wf st.he) :
    st.hc.keeps (ExtendM c other st).2.hc ∧
    st.he.keepsExcept (ExtendM c other st).2.he nilSlice ∧
    (ExtendM c other st).2.hc.wf0 ∧
    (ExtendM c other st).2.he.wf0 ∧
    (ExtendM c other st).1.constructors.wf (ExtendM c other st).2.hc ∧
    (ExtendM c other st).1.endwares.wf (ExtendM c other st).2.he ∧
    (ExtendM c other st).1.constructors.elems (ExtendM c other st).2.hc
      = c.constructors.elems st.hc ++ other.constructors.elems st.hc ∧
    (ExtendM c other st).1.endwares.elems (ExtendM c other st).2.he
      = c.endwares.elems st.he ++ other.endwares.elems st.he ∧
    (st.hc.next ≤ (ExtendM c other st).1.constructors.id ∨
      (ExtendM c other st).1.constructors.len = 0) ∧
    st.he.next ≤ (ExtendM c other st).1.endwares.id := by
  set a := AppendM c (other.constructors.elems st.hc) st with haa
  have hA : ExtendM c other st
      = AppendEndwareM a.1 (other.endwares.elems a.2.he) a.2 := rfl
  rw [hA]
  obtain ⟨p1, p2, p3, p4, p5, p6, p7, p8, p9, p10⟩ :=
    AppendM_spec c (other.constructors.elems st.hc) st hwc hwe hcw hew
  rw [← haa] at p1 p2 p3 p4 p5 p6 p7 p8 p9 p10
  have hoelems : other.endwares.elems a.2.he = other.endwares.elems st.he :=
    GoSlice.elems_of_keepsExcept p2 hoew.1
      (fun h0 => Nat.le_of_eq (hoew.2.2.2 h0).1)
  obtain ⟨q1, q2, q3, q4, q5, q6, q7, q8, q9, q10⟩ :=
    AppendEndwareM_spec a.1 (other.endwares.elems a.2.he) a.2 p3 p4 p5 p6
  have hq8 : (AppendEndwareM a.1 (other.endwares.elems a.2.he) a.2).1.endwares.elems
      (AppendEndwareM a.1 (other.endwares.elems a.2.he) a.2).2.he
      = c.endwares.elems st.he ++ other.endwares.elems st.he :=
    q8.trans (by rw [p8, hoelems])
  have hq9 : a.2.hc.next ≤ (AppendEndwareM a.1 (other.endwares.elems a.2.he)
        a.2).1.constructors.id ∨
      (AppendEndwareM a.1 (other.endwares.elems a.2.he) a.2).1.constructors.len = 0 := q9
  have hq10 : a.2.he.next ≤ (AppendEndwareM a.1 (other.endwares.elems a.2.he)
      a.2).1.endwares.id := q10
  have hp1 := p1.1
  have hp2 := p2.1
  have hwe1 := hwe.1
  clear_value a
  refine ⟨Heap.keeps_trans p1 q1,
    Heap.keepsExcept_trans_fresh p2 q2 (show nilSlice.id < st.he.next by
      show 0 < st.he.next
      omega) p10,
    q3, q4, q5, q6, q7.trans p7, hq8, ?_, by omega⟩
  rcases hq9 with h | h
  · exact Or.inl (by omega)
  · exact Or.inr h

end Alice.Mem

namespace Alice

lemma tag_foldr {Req : Type} (tags : List String) (w : ResponseWriter) (r : Req) :
    ((tags.map tagMiddleware).foldr (fun ctor acc => ctor acc) testApp) w r
      = w ++ tags ++ ["app"] := by
  induction tags generalizing w with
  | nil => simp [testApp]
  | cons t ts ih =>
    simp only [List.map_cons, List.foldr_cons, tagMiddleware]
    rw [ih]
    simp

end Alice

/-- C1: `New(c1..cn).Then(h)` composes the constructors in reverse registration
order, behaving as `c1(c2(...cn(h)))` — in both the endware-extended chain and
the classic chain — so a tagged request flows through `c1` first, then `c2`,
…, then `cn`, and finally reaches the terminal handler. -/
theorem then_composes_in_reverse_registration_order :
    (∀ (Req : Type) (dsm : Alice.Handler Req) (cs : List (Alice.Constructor Req))
        (h : Alice.Handler Req),
      (Alice.New cs).Then dsm (some h) = cs.foldr (fun ctor acc => ctor acc) h) ∧
    (∀ (Req : Type) (dsm : Alice.Handler Req) (cs : List (Alice.Constructor Req))
        (h : Alice.Handler Req),
      (Classic.New cs).Then dsm (some h) = cs.foldr (fun ctor acc => ctor acc) h) ∧
    (∀ (Req : Type) (dsm : Alice.Handler Req) (tags : List String)
        (w : Alice.ResponseWriter) (r : Req),
      (Alice.New (tags.map Alice.tagMiddleware)).Then dsm (some Alice.testApp) w r
        = w ++ tags ++ ["app"]) :=
  ⟨fun _ _ _ _ => rfl, fun _ _ _ _ => rfl,
   fun _ _ tags w r => Alice.tag_foldr tags w r⟩

/-- C4: a nil terminal is never an error: `Then(nil)`/`ThenFunc(nil)` substitute
the collaborator's default handler as the terminal for every chain, and an
empty chain's `Then(nil)`/`ThenFunc(nil)` return that default handler itself —
`http.DefaultServeMux` for the handler chain, `http.DefaultTransport` for the
transport-level chain. -/
theorem nil_terminal_resolves_to_default :
    (∀ (Req : Type) (dsm : Alice.Handler Req) (c : Alice.Chain Req),
      c.Then dsm none = c.Then dsm (some dsm)) ∧
    (∀ (Req : Type) (dsm : Alice.Handler Req) (c : Alice.Chain Req),
      c.ThenFunc dsm none = c.Then dsm none) ∧
    (∀ (Req : Type) (dsm : Alice.Handler Req),
      (Alice.New ([] : List (Alice.Constructor Req))).Then dsm none = dsm) ∧
    (∀ (Req : Type) (dsm : Alice.Handler Req),
      (Alice.New ([] : List (Alice.Constructor Req))).ThenFunc dsm none = dsm) ∧
    (∀ (Req Resp Err : Type) (dt : Bob.RoundTripper Req Resp Err),
      (Bob.New ([] : List (Bob.Constructor Req Resp Err))).Then dt none = dt) ∧
    (∀ (Req Resp Err : Type) (dt : Bob.RoundTripper Req Resp Err),
      (Bob.New ([] : List (Bob.Constructor Req Resp Err))).ThenFunc dt none = dt) :=
  ⟨fun _ _ _ => rfl, fun _ _ _ => rfl, fun _ _ => rfl, fun _ _ => rfl,
   fun _ _ _ _ => rfl, fun _ _ _ _ => rfl⟩

/-- C5: `A.Extend(B)` yields constructors `A.constructors ++ B.constructors`
and endwares `A.endwares ++ B.endwares`, and equals
`A.Append(B.constructors...).AppendEndware(B.endwares...)` with no other
behavior. -/
theorem extend_concatenates_both_sequences :
    ∀ (Req : Type) (A B : Alice.Chain Req),
      (A.Extend B).constructors = A.constructors ++ B.constructors ∧
      (A.Extend B).endwares = A.endwares ++ B.endwares ∧
      A.Extend B = (A.Append B.constructors).AppendEndware B.endwares :=
  fun _ _ _ => ⟨rfl, rfl, rfl⟩

/-- C7: `Contextualize(transformer)` returns a bridge capturing a copy of the
chain, the transformer, and an initially empty contextualized chain; the
bridge's `Append` extends only the context-carrying segment, copying the
non-context chain and the transformer unchanged. -/
theorem contextualize_captures_and_append_extends_context_only :
    (∀ (Ctx Req : Type) (c : Alice.Chain Req) (T : Alice.ToContextConstructor Ctx Req),
      (c.Contextualize T).chain = c ∧ (c.Contextualize T).transformer = T ∧
      (c.Contextualize T).cchain.constructors = []) ∧
    (∀ (Ctx Req : Type) (b : Alice.toContextualizedChain Ctx Req)
        (cs : List (Alice.ContextualizedConstructor Ctx Req)),
      (b.Append cs).chain = b.chain ∧ (b.Append cs).transformer = b.transformer ∧
      (b.Append cs).cchain.constructors = b.cchain.constructors ++ cs) :=
  ⟨fun _ _ _ _ => ⟨rfl, rfl, rfl⟩, fun _ _ _ _ => ⟨rfl, rfl, rfl⟩⟩

/-- C10: `AfterFuncs` and `AppendEndwareFuncs` return exactly the chain
produced by `After`/`AppendEndware` on the functions wrapped as handlers via
the `http.HandlerFunc` conversion, so they inherit all of `After`'s and
`AppendEndware`'s guarantees. -/
theorem funcs_variants_equal_wrapped_after_variants :
    ∀ (Req : Type) (c : Alice.Chain Req)
      (fns : List (Alice.ResponseWriter → Req → Alice.ResponseWriter)),
      c.AfterFuncs fns = c.After (fns.map (fun fn => Alice.httpHandlerFunc fn)) ∧
      c.AppendEndwareFuncs fns
        = c.AppendEndware (fns.map (fun fn => Alice.httpHandlerFunc fn)) :=
  fun _ _ _ => ⟨rfl, rfl⟩

namespace Alice

lemma count_foldr {Req : Type}
    (L : List (Handler Req → Nat → Handler Req × Nat))
    (hL : ∀ f ∈ L, ∀ hh n, (f hh n).2 = n + 1) (p : Handler Req × Nat) :
    (L.foldr (fun ctor hs => ctor hs.1 hs.2) p).2 = p.2 + L.length := by
  induction L with
  | nil => simp
  | cons f L ih =>
    simp only [List.foldr_cons, List.length_cons]
    rw [hL f (List.mem_cons_self _ _) _ _,
      ih (fun f hf => hL f (List.mem_cons_of_mem _ hf))]
    omega

end Alice

/-- C3: with endwares registered, `Then` first wraps the terminal in the
`endwareHandler` adapter — which runs the (possibly further wrapped) terminal
and afterwards each endware in registration order against the same request and
response — and only then do all constructors wrap outside it; concretely
`After(e1,e2).Then(h)` writes `h`'s output followed by `e1`'s then `e2`'s
markers. -/
theorem endwares_run_in_registration_order_after_terminal :
    (∀ (Req : Type) (dsm : Alice.Handler Req) (c : Alice.Chain Req)
        (h : Alice.Handler Req), c.endwares ≠ [] →
      c.Then dsm (some h) = c.constructors.foldr (fun ctor acc => ctor acc)
        (Alice.endwareHandler.mk h c.endwares).ServeHTTP) ∧
    (∀ (Req : Type) (eh : Alice.endwareHandler Req) (w : Alice.ResponseWriter) (r : Req),
      eh.ServeHTTP w r
        = eh.endwares.foldl (fun w endware => endware w r) (eh.handler w r)) ∧
    (∀ (Req : Type) (dsm : Alice.Handler Req) (w : Alice.ResponseWriter) (r : Req),
      ((Alice.New []).After [Alice.tagEndware "e1", Alice.tagEndware "e2"]).Then dsm
        (some Alice.testApp) w r = w ++ ["app", "e1", "e2"]) := by
  refine ⟨?_, ?_, ?_⟩
  · intro Req dsm c h hne
    have hpos : 0 < c.endwares.length := List.length_pos.mpr hne
    simp [Alice.Chain.Then, hpos]
  · intro Req eh w r
    rfl
  · intro Req dsm w r
    simp [Alice.Chain.Then, Alice.Chain.After, Alice.New,
      Alice.endwareHandler.ServeHTTP, Alice.tagEndware, Alice.testApp,
      List.append_assoc]

/-- C3 witness: a concrete chain with one endware satisfies the hypothesis and
the adapter equation. -/
theorem endwares_run_in_registration_order_after_terminal_witness :
    ((Alice.New ([] : List (Alice.Constructor Unit))).After
        [Alice.tagEndware "e1"]).endwares ≠ [] ∧
    ((Alice.New ([] : List (Alice.Constructor Unit))).After
        [Alice.tagEndware "e1"]).Then Alice.testApp (some Alice.testApp)
      = ((Alice.New ([] : List (Alice.Constructor Unit))).After
            [Alice.tagEndware "e1"]).constructors.foldr (fun ctor acc => ctor acc)
          (Alice.endwareHandler.mk Alice.testApp
            ((Alice.New ([] : List (Alice.Constructor Unit))).After
              [Alice.tagEndware "e1"]).endwares).ServeHTTP :=
  ⟨by simp [Alice.Chain.After, Alice.New],
   endwares_run_in_registration_order_after_terminal.1 Unit Alice.testApp _
     Alice.testApp (by simp [Alice.Chain.After, Alice.New])⟩

/-- C6: bridge resolution happens in two stages — the contextualized segment
composes around the terminal exactly as the contextualized chain's `Then`, the
transformer converts the result once, and the non-context segment composes
around the converted handler exactly as the plain chain's `Then` — so the
markers appear in the order t1, t2, ctx, ct1, ct2, app. -/
theorem bridge_resolves_in_two_stages :
    (∀ (Ctx Req : Type) (tcc : Alice.toContextualizedChain Ctx Req)
        (dsm : Alice.Handler Req) (cf : Option (Alice.ContextualizedHandler Ctx Req)),
      tcc.Then dsm cf
        = tcc.chain.Then dsm (some (tcc.transformer (tcc.cchain.Then dsm cf)))) ∧
    (∀ (Ctx Req : Type) (bg : Ctx) (dsm : Alice.Handler Req)
        (w : Alice.ResponseWriter) (r : Req),
      (((Alice.New [Alice.tagMiddleware "t1", Alice.tagMiddleware "t2"]).Contextualize
          (Alice.c2cTransformer bg)).Append
          [Alice.ctxTagMiddleware "ct1", Alice.ctxTagMiddleware "ct2"]).Then dsm
          (some Alice.ctxTestApp) w r
        = w ++ ["t1", "t2", "ctx", "ct1", "ct2", "app"]) := by
  refine ⟨fun _ _ _ _ _ => rfl, ?_⟩
  intro Ctx Req bg dsm w r
  simp [Alice.toContextualizedChain.Then, Alice.toContextualizedChain.Append,
    Alice.Chain.Contextualize, Alice.Chain.copy, Alice.ContextualizedChain.Then,
    Alice.ContextualizedChain.Append, Alice.NewContextualized, Alice.New,
    Alice.Chain.Then, Alice.c2cTransformer, Alice.ctxTagMiddleware,
    Alice.tagMiddleware, Alice.ctxTestApp, List.append_assoc]

/-- C8: each resolution of the bridge (`Then` or `ThenFunc`) invokes the
transformer exactly once, applied to the freshly composed context-aware handler
of that resolution; two successive resolutions invoke it once each — the
result is never cached. -/
theorem transformer_invoked_once_per_resolution :
    ∀ (Ctx Req : Type) (chain : Alice.Chain Req)
      (cchain : Alice.ContextualizedChain Ctx Req)
      (g : Alice.ContextualizedHandler Ctx Req → Alice.Handler Req)
      (dsm : Alice.Handler Req)
      (cf cf1 cf2 : Option (Alice.ContextualizedHandler Ctx Req))
      (fn : Option (Alice.ContextualizedHandlerFunc Ctx Req)) (k : Nat),
      ((Alice.toContextualizedChainTr.mk chain (fun ch n => (g ch, n + 1)) cchain).Then
          dsm cf k).2 = k + 1 ∧
      ((Alice.toContextualizedChainTr.mk chain (fun ch n => (g ch, n + 1))
          cchain).ThenFunc dsm fn k).2 = k + 1 ∧
      ((Alice.toContextualizedChainTr.mk chain (fun ch n => (g ch, n + 1)) cchain).Then
          dsm cf2 (((Alice.toContextualizedChainTr.mk chain (fun ch n => (g ch, n + 1))
            cchain).Then dsm cf1 k).2)).2 = k + 2 ∧
      ((Alice.toContextualizedChainTr.mk chain (fun ch n => (g ch, n + 1)) cchain).Then
          dsm cf k).1
        = chain.Then dsm (some (g (cchain.Then dsm cf))) := by
  intro Ctx Req chain cchain g dsm cf cf1 cf2 fn k
  refine ⟨rfl, ?_, rfl, rfl⟩
  cases fn with
  | none => rfl
  | some f => rfl

/-- C9: resolution is read-only and repeatable: at the storage level `Then`
returns the heaps exactly as received, so resolving twice in sequence equals
resolving each independently; and with counting constructors, every resolution
freshly invokes each constructor — two resolutions invoke each one twice. -/
theorem resolution_is_read_only_and_repeatable :
    (∀ (Req : Type) (c : Alice.Mem.MemChain) (dsm : Alice.Handler Req)
        (h : Option (Alice.Handler Req))
        (st : Alice.Mem.MemState (Alice.Constructor Req) (Alice.Endware Req)),
      (Alice.Mem.ThenM c dsm h st).2 = st) ∧
    (∀ (Req : Type) (c : Alice.Mem.MemChain) (dsm : Alice.Handler Req)
        (h1 h2 : Option (Alice.Handler Req))
        (st : Alice.Mem.MemState (Alice.Constructor Req) (Alice.Endware Req)),
      (Alice.Mem.ThenM c dsm h2 (Alice.Mem.ThenM c dsm h1 st).2).1
        = (Alice.Mem.ThenM c dsm h2 st).1 ∧
      (Alice.Mem.ThenM c dsm h2 (Alice.Mem.ThenM c dsm h1 st).2).2 = st) ∧
    (∀ (Req : Type) (gs : List (Alice.Handler Req → Alice.Handler Req))
        (ends : List (Alice.Endware Req)) (dsm : Alice.Handler Req)
        (h : Option (Alice.Handler Req)) (k : Nat),
      (Alice.ThenTraced dsm (gs.map (fun g => fun hh (n : Nat) => (g hh, n + 1)))
          ends h k).2 = k + gs.length ∧
      (Alice.ThenTraced dsm (gs.map (fun g => fun hh (n : Nat) => (g hh, n + 1))) ends h
          ((Alice.ThenTraced dsm (gs.map (fun g => fun hh (n : Nat) => (g hh, n + 1)))
            ends h k).2)).2 = k + 2 * gs.length) := by
  refine ⟨fun _ _ _ _ _ => rfl, fun _ _ _ _ _ _ => ⟨rfl, rfl⟩, ?_⟩
  intro Req gs ends dsm h k
  have hL : ∀ f ∈ gs.map (fun g => fun hh (n : Nat) => (g hh, n + 1)),
      ∀ hh n, (f hh n).2 = n + 1 := by
    intro f hf hh n
    obtain ⟨g, hg, rfl⟩ := List.mem_map.mp hf
    rfl
  have h1 : (Alice.ThenTraced dsm (gs.map (fun g => fun hh (n : Nat) => (g hh, n + 1)))
      ends h k).2
      = k + (gs.map (fun g => fun hh (n : Nat) => (g hh, n + 1))).length :=
    Alice.count_foldr _ hL _
  have h2 : (Alice.ThenTraced dsm (gs.map (fun g => fun hh (n : Nat) => (g hh, n + 1)))
      ends h ((Alice.ThenTraced dsm
        (gs.map (fun g => fun hh (n : Nat) => (g hh, n + 1))) ends h k).2)).2
      = ((Alice.ThenTraced dsm (gs.map (fun g => fun hh (n : Nat) => (g hh, n + 1)))
        ends h k).2)
        + (gs.map (fun g => fun hh (n : Nat) => (g hh, n + 1))).length :=
    Alice.count_foldr _ hL _
  have hlen : (gs.map (fun g => fun hh (n : Nat) => (g hh, n + 1))).length
      = gs.length := List.length_map _ _
  rw [hlen] at h1 h2
  refine ⟨h1, ?_⟩
  rw [h2, h1, Nat.add_assoc, ← Nat.two_mul]

namespace Alice.Mem

lemma opConclusions {C E : Type} (st : MemState C E) (c : MemChain)
    (r : MemChain × MemState C E) (ex : GoSlice) (rcs : List C) (res : List E)
    (hcw : c.constructors.wf st.hc) (hew : c.endwares.wf st.he)
    (k1 : st.hc.keeps r.2.hc) (k2 : st.he.keepsExcept r.2.he ex)
    (hex : c.endwares.id = ex.id → c.endwares.len ≤ ex.len)
    (h7 : r.1.constructors.elems r.2.hc = rcs)
    (h8 : r.1.endwares.elems r.2.he = res)
    (h9 : st.hc.next ≤ r.1.constructors.id ∨ r.1.constructors.len = 0)
    (h10 : st.he.next ≤ r.1.endwares.id) :
    preservesChain st r.2 c ∧ freshChain st r.1 ∧
    r.1.constructors.disjoint c.constructors ∧
    r.1.endwares.disjoint c.endwares ∧
    r.1.constructors.elems r.2.hc = rcs ∧
    r.1.endwares.elems r.2.he = res := by
  refine ⟨⟨GoSlice.elems_of_keeps k1 hcw.1, GoSlice.elems_of_keepsExcept k2 hew.1 hex⟩,
    ⟨h9, Or.inl h10⟩, ?_, Or.inl (Nat.ne_of_gt (Nat.lt_of_lt_of_le hew.1 h10)),
    h7, h8⟩
  rcases h9 with h | h
  · exact Or.inl (Nat.ne_of_gt (Nat.lt_of_lt_of_le hcw.1 h))
  · exact Or.inr (Or.inl h)

/-- A concrete two-heap state for evaluating the storage claims: both heaps
have handed out one array id (so the nil id 0 is reserved) and are empty. -/
def stWitness : MemState Nat Nat := ⟨⟨1, fun _ => []⟩, ⟨1, fun _ => []⟩⟩

/-- A concrete empty chain (both slices nil). -/
def chainWitness : MemChain := ⟨nilSlice, nilSlice⟩

end Alice.Mem

/-- C2: every adding operation (`Append`, `After`, `AppendEndware`, `Extend`)
preserves the receiver's observable constructor and endware sequences (hence
their lengths), and returns a chain holding the expected combined elements on
storage disjoint from the receiver's — fresh arrays, or no storage at all when
a sequence is empty. -/
theorem adding_operations_copy_and_never_mutate :
    ∀ (C E : Type) (st : Alice.Mem.MemState C E) (c other : Alice.Mem.MemChain)
      (cs : List C) (es : List E),
      st.hc.wf0 → st.he.wf0 →
      c.constructors.wf st.hc → c.endwares.wf st.he →
      other.constructors.wf st.hc → other.endwares.wf st.he →
      (Alice.Mem.preservesChain st (Alice.Mem.AppendM c cs st).2 c ∧
        Alice.Mem.freshChain st (Alice.Mem.AppendM c cs st).1 ∧
        (Alice.Mem.AppendM c cs st).1.constructors.disjoint c.constructors ∧
        (Alice.Mem.AppendM c cs st).1.endwares.disjoint c.endwares ∧
        (Alice.Mem.AppendM c cs st).1.constructors.elems
            (Alice.Mem.AppendM c cs st).2.hc
          = c.constructors.elems st.hc ++ cs ∧
        (Alice.Mem.AppendM c cs st).1.endwares.elems (Alice.Mem.AppendM c cs st).2.he
          = c.endwares.elems st.he) ∧
      (Alice.Mem.preservesChain st (Alice.Mem.AfterM c es st).2 c ∧
        Alice.Mem.freshChain st (Alice.Mem.AfterM c es st).1 ∧
        (Alice.Mem.AfterM c es st).1.constructors.disjoint c.constructors ∧
        (Alice.Mem.AfterM c es st).1.endwares.disjoint c.endwares ∧
        (Alice.Mem.AfterM c es st).1.constructors.elems
            (Alice.Mem.AfterM c es st).2.hc
          = c.constructors.elems st.hc ∧
        (Alice.Mem.AfterM c es st).1.endwares.elems (Alice.Mem.AfterM c es st).2.he
          = c.endwares.elems st.he ++ es) ∧
      (Alice.Mem.preservesChain st (Alice.Mem.AppendEndwareM c es st).2 c ∧
        Alice.Mem.freshChain st (Alice.Mem.AppendEndwareM c es st).1 ∧
        (Alice.Mem.AppendEndwareM c es st).1.constructors.disjoint c.constructors ∧
        (Alice.Mem.AppendEndwareM c es st).1.endwares.disjoint c.endwares ∧
        (Alice.Mem.AppendEndwareM c es st).1.constructors.elems
            (Alice.Mem.AppendEndwareM c es st).2.hc
          = c.constructors.elems st.hc ∧
        (Alice.Mem.AppendEndwareM c es st).1.endwares.elems
            (Alice.Mem.AppendEndwareM c es st).2.he
          = c.endwares.elems st.he ++ es) ∧
      (Alice.Mem.preservesChain st (Alice.Mem.ExtendM c other st).2 c ∧
        Alice.Mem.freshChain st (Alice.Mem.ExtendM c other st).1 ∧
        (Alice.Mem.ExtendM c other st).1.constructors.disjoint c.constructors ∧
        (Alice.Mem.ExtendM c other st).1.endwares.disjoint c.endwares ∧
        (Alice.Mem.ExtendM c other st).1.constructors.elems
            (Alice.Mem.ExtendM c other st).2.hc
          = c.constructors.elems st.hc ++ other.constructors.elems st.hc ∧
        (Alice.Mem.ExtendM c other st).1.endwares.elems
            (Alice.Mem.ExtendM c other st).2.he
          = c.endwares.elems st.he ++ other.endwares.elems st.he) := by
  intro C E st c other cs es hwc hwe hcw hew hocw hoew
  obtain ⟨a1, a2, a3, a4, a5, a6, a7, a8, a9, a10⟩ :=
    Alice.Mem.AppendM_spec c cs st hwc hwe hcw hew
  obtain ⟨b1, b2, b3, b4, b5, b6, b7, b8, b9, b10⟩ :=
    Alice.Mem.AfterM_spec c es st hwc hwe hcw hew
  obtain ⟨d1, d2, d3, d4, d5, d6, d7, d8, d9, d10⟩ :=
    Alice.Mem.AppendEndwareM_spec c es st hwc hwe hcw hew
  obtain ⟨e1, e2, e3, e4, e5, e6, e7, e8, e9, e10⟩ :=
    Alice.Mem.ExtendM_spec c other st hwc hwe hcw hew hocw hoew
  exact ⟨Alice.Mem.opConclusions st c _ Alice.Mem.nilSlice _ _ hcw hew a1 a2
      (fun h0 => Nat.le_of_eq (hew.2.2.2 h0).1) a7 a8 a9 a10,
    Alice.Mem.opConclusions st c _ c.endwares _ _ hcw hew b1
      (b2.toExcept hew.1) (fun _ => Nat.le_refl _) b7 b8 b9 b10,
    Alice.Mem.opConclusions st c _ c.endwares _ _ hcw hew d1 d2
      (fun _ => Nat.le_refl _) d7 d8 d9 d10,
    Alice.Mem.opConclusions st c _ Alice.Mem.nilSlice _ _ hcw hew e1 e2
      (fun h0 => Nat.le_of_eq (hew.2.2.2 h0).1) e7 e8 e9 e10⟩

/-- C2 witness: the hypotheses hold and the conclusion follows at a concrete
state, chain, and argument lists. -/
theorem adding_operations_copy_and_never_mutate_witness :
    (Alice.Mem.stWitness.hc.wf0 ∧ Alice.Mem.stWitness.he.wf0 ∧
      Alice.Mem.chainWitness.constructors.wf Alice.Mem.stWitness.hc ∧
      Alice.Mem.chainWitness.endwares.wf Alice.Mem.stWitness.he) ∧
    ((Alice.Mem.preservesChain Alice.Mem.stWitness
          (Alice.Mem.AppendM Alice.Mem.chainWitness [7] Alice.Mem.stWitness).2
          Alice.Mem.chainWitness ∧
        Alice.Mem.freshChain Alice.Mem.stWitness
          (Alice.Mem.AppendM Alice.Mem.chainWitness [7] Alice.Mem.stWitness).1 ∧
        (Alice.Mem.AppendM Alice.Mem.chainWitness [7]
            Alice.Mem.stWitness).1.constructors.disjoint
          Alice.Mem.chainWitness.constructors ∧
        (Alice.Mem.AppendM Alice.Mem.chainWitness [7]
            Alice.Mem.stWitness).1.endwares.disjoint
          Alice.Mem.chainWitness.endwares ∧
        (Alice.Mem.AppendM Alice.Mem.chainWitness [7]
            Alice.Mem.stWitness).1.constructors.elems
            (Alice.Mem.AppendM Alice.Mem.chainWitness [7] Alice.Mem.stWitness).2.hc
          = Alice.Mem.chainWitness.constructors.elems Alice.Mem.stWitness.hc ++ [7] ∧
        (Alice.Mem.AppendM Alice.Mem.chainWitness [7]
            Alice.Mem.stWitness).1.endwares.elems
            (Alice.Mem.AppendM Alice.Mem.chainWitness [7] Alice.Mem.stWitness).2.he
          = Alice.Mem.chainWitness.endwares.elems Alice.Mem.stWitness.he) ∧
      (Alice.Mem.preservesChain Alice.Mem.stWitness
          (Alice.Mem.AfterM Alice.Mem.chainWitness [9] Alice.Mem.stWitness).2
          Alice.Mem.chainWitness ∧
        Alice.Mem.freshChain Alice.Mem.stWitness
          (Alice.Mem.AfterM Alice.Mem.chainWitness [9] Alice.Mem.stWitness).1 ∧
        (Alice.Mem.AfterM Alice.Mem.chainWitness [9]
            Alice.Mem.stWitness).1.constructors.disjoint
          Alice.Mem.chainWitness.constructors ∧
        (Alice.Mem.AfterM Alice.Mem.chainWitness [9]
            Alice.Mem.stWitness).1.endwares.disjoint
          Alice.Mem.chainWitness.endwares ∧
        (Alice.Mem.AfterM Alice.Mem.chainWitness [9]
            Alice.Mem.stWitness).1.constructors.elems
            (Alice.Mem.AfterM Alice.Mem.chainWitness [9] Alice.Mem.stWitness).2.hc
          = Alice.Mem.chainWitness.constructors.elems Alice.Mem.stWitness.hc ∧
        (Alice.Mem.AfterM Alice.Mem.chainWitness [9]
            Alice.Mem.stWitness).1.endwares.elems
            (Alice.Mem.AfterM Alice.Mem.chainWitness [9] Alice.Mem.stWitness).2.he
          = Alice.Mem.chainWitness.endwares.elems Alice.Mem.stWitness.he ++ [9]) ∧
      (Alice.Mem.preservesChain Alice.Mem.stWitness
          (Alice.Mem.AppendEndwareM Alice.Mem.chainWitness [9] Alice.Mem.stWitness).2
          Alice.Mem.chainWitness ∧
        Alice.Mem.freshChain Alice.Mem.stWitness
          (Alice.Mem.AppendEndwareM Alice.Mem.chainWitness [9] Alice.Mem.stWitness).1 ∧
        (Alice.Mem.AppendEndwareM Alice.Mem.chainWitness [9]
            Alice.Mem.stWitness).1.constructors.disjoint
          Alice.Mem.chainWitness.constructors ∧
        (Alice.Mem.AppendEndwareM Alice.Mem.chainWitness [9]
            Alice.Mem.stWitness).1.endwares.disjoint
          Alice.Mem.chainWitness.endwares ∧
        (Alice.Mem.AppendEndwareM Alice.Mem.chainWitness [9]
            Alice.Mem.stWitness).1.constructors.elems
            (Alice.Mem.AppendEndwareM Alice.Mem.chainWitness [9]
              Alice.Mem.stWitness).2.hc
          = Alice.Mem.chainWitness.constructors.elems Alice.Mem.stWitness.hc ∧
        (Alice.Mem.AppendEndwareM Alice.Mem.chainWitness [9]
            Alice.Mem.stWitness).1.endwares.elems
            (Alice.Mem.AppendEndwareM Alice.Mem.chainWitness [9]
              Alice.Mem.stWitness).2.he
          = Alice.Mem.chainWitness.endwares.elems Alice.Mem.stWitness.he ++ [9]) ∧
      (Alice.Mem.preservesChain Alice.Mem.stWitness
          (Alice.Mem.ExtendM Alice.Mem.chainWitness Alice.Mem.chainWitness
            Alice.Mem.stWitness).2 Alice.Mem.chainWitness ∧
        Alice.Mem.freshChain Alice.Mem.stWitness
          (Alice.Mem.ExtendM Alice.Mem.chainWitness Alice.Mem.chainWitness
            Alice.Mem.stWitness).1 ∧
        (Alice.Mem.ExtendM Alice.Mem.chainWitness Alice.Mem.chainWitness
            Alice.Mem.stWitness).1.constructors.disjoint
          Alice.Mem.chainWitness.constructors ∧
        (Alice.Mem.ExtendM Alice.Mem.chainWitness Alice.Mem.chainWitness
            Alice.Mem.stWitness).1.endwares.disjoint
          Alice.Mem.chainWitness.endwares ∧
        (Alice.Mem.ExtendM Alice.Mem.chainWitness Alice.Mem.chainWitness
            Alice.Mem.stWitness).1.constructors.elems
            (Alice.Mem.ExtendM Alice.Mem.chainWitness Alice.Mem.chainWitness
              Alice.Mem.stWitness).2.hc
          = Alice.Mem.chainWitness.constructors.elems Alice.Mem.stWitness.hc
            ++ Alice.Mem.chainWitness.constructors.elems Alice.Mem.stWitness.hc ∧
        (Alice.Mem.ExtendM Alice.Mem.chainWitness Alice.Mem.chainWitness
            Alice.Mem.stWitness).1.endwares.elems
            (Alice.Mem.ExtendM Alice.Mem.chainWitness Alice.Mem.chainWitness
              Alice.Mem.stWitness).2.he
          = Alice.Mem.chainWitness.endwares.elems Alice.Mem.stWitness.he
            ++ Alice.Mem.chainWitness.endwares.elems Alice.Mem.stWitness.he)) :=
  ⟨⟨⟨Nat.le_refl 1, rfl⟩, ⟨Nat.le_refl 1, rfl⟩,
    Alice.Mem.nilSlice_wf Alice.Mem.stWitness.hc (Nat.le_refl 1),
    Alice.Mem.nilSlice_wf Alice.Mem.stWitness.he (Nat.le_refl 1)⟩,
   adding_operations_copy_and_never_mutate Nat Nat Alice.Mem.stWitness
     Alice.Mem.chainWitness Alice.Mem.chainWitness [7] [9]
     ⟨Nat.le_refl 1, rfl⟩ ⟨Nat.le_refl 1, rfl⟩
     (Alice.Mem.nilSlice_wf Alice.Mem.stWitness.hc (Nat.le_refl 1))
     (Alice.Mem.nilSlice_wf Alice.Mem.stWitness.he (Nat.le_refl 1))
     (Alice.Mem.nilSlice_wf Alice.Mem.stWitness.hc (Nat.le_refl 1))
     (Alice.Mem.nilSlice_wf Alice.Mem.stWitness.he (Nat.le_refl 1))⟩
